import Mathlib

/-!
Verification development for the proof-of-reserves Merkle tree repository
(`src/merkle.rs`, `src/db.rs`).  Byte buffers are modelled as `List Nat`
(each entry a byte value), 32-bit machine words as `Nat` reduced modulo
`2 ^ 32`, and fallible operations (array slicing that could panic in Rust)
as `Option`-returning functions whose `none` case marks the panic.
-/

set_option maxRecDepth 4000
set_option maxHeartbeats 4000000

/-! ## SHA-256 primitive (model of the `sha2` crate used by `Sha256Algorithm`)

Bytes are `Nat`s below 256; words are `Nat`s below `2 ^ 32`.  The
implementation follows FIPS 180-4 directly. -/

def add32 (a b : Nat) : Nat := (a + b) % 4294967296

def rotr32 (r w : Nat) : Nat := ((w >>> r) ||| (w <<< (32 - r))) % 4294967296

def not32 (w : Nat) : Nat := w ^^^ 4294967295

def chFn (x y z : Nat) : Nat := (x &&& y) ^^^ (not32 x &&& z)

def majFn (x y z : Nat) : Nat := (x &&& y) ^^^ (x &&& z) ^^^ (y &&& z)

def bigSigma0 (x : Nat) : Nat := rotr32 2 x ^^^ rotr32 13 x ^^^ rotr32 22 x

def bigSigma1 (x : Nat) : Nat := rotr32 6 x ^^^ rotr32 11 x ^^^ rotr32 25 x

def smallSigma0 (x : Nat) : Nat := rotr32 7 x ^^^ rotr32 18 x ^^^ (x >>> 3)

def smallSigma1 (x : Nat) : Nat := rotr32 17 x ^^^ rotr32 19 x ^^^ (x >>> 10)

def sha256K : List Nat :=
  [1116352408, 1899447441, 3049323471, 3921009573, 961987163, 1508970993,
   2453635748, 2870763221, 3624381080, 310598401, 607225278, 1426881987,
   1925078388, 2162078206, 2614888103, 3248222580, 3835390401, 4022224774,
   264347078, 604807628, 770255983, 1249150122, 1555081692, 1996064986,
   2554220882, 2821834349, 2952996808, 3210313671, 3336571891, 3584528711,
   113926993, 338241895, 666307205, 773529912, 1294757372, 1396182291,
   1695183700, 1986661051, 2177026350, 2456956037, 2730485921, 2820302411,
   3259730800, 3345764771, 3516065817, 3600352804, 4094571909, 275423344,
   430227734, 506948616, 659060556, 883997877, 958139571, 1322822218,
   1537002063, 1747873779, 1955562222, 2024104815, 2227730452, 2361852424,
   2428436474, 2756734187, 3204031479, 3329325298]

def sha256InitH : List Nat :=
  [1779033703, 3144134277, 1013904242, 2773480762, 1359893119, 2600822924,
   528734635, 1541459225]

/-- Message-schedule recurrence `w_t = sigma1(w_{t-2}) + w_{t-7} + sigma0(w_{t-15})
+ w_{t-16}` over a sliding window of the last 16 words
(`x0 = w_{t-16}, …, x15 = w_{t-1}`); produces the `fuel` remaining words. -/
def extendWords :
    Nat → Nat → Nat → Nat → Nat → Nat → Nat → Nat → Nat →
    Nat → Nat → Nat → Nat → Nat → Nat → Nat → Nat → List Nat
  | 0, _, _, _, _, _, _, _, _, _, _, _, _, _, _, _, _ => []
  | fuel + 1, x0, x1, x2, x3, x4, x5, x6, x7, x8, x9, x10, x11, x12, x13, x14, x15 =>
    let nw := add32 (add32 (smallSigma1 x14) x9) (add32 (smallSigma0 x1) x0)
    nw :: extendWords fuel x1 x2 x3 x4 x5 x6 x7 x8 x9 x10 x11 x12 x13 x14 x15 nw
termination_by structural fuel => fuel

/-- The 64-word message schedule of a 16-word block. -/
def schedule64 (block : List Nat) : List Nat :=
  match block with
  | [b0, b1, b2, b3, b4, b5, b6, b7, b8, b9, b10, b11, b12, b13, b14, b15] =>
    block ++ extendWords 48 b0 b1 b2 b3 b4 b5 b6 b7 b8 b9 b10 b11 b12 b13 b14 b15
  | _ => block

/-- The 64 SHA-256 rounds over the working variables `a`–`h`, consuming the
zipped list of round constants and schedule words. -/
def roundLoop :
    List (Nat × Nat) → Nat → Nat → Nat → Nat → Nat → Nat → Nat → Nat → List Nat
  | [], a, b, c, d, e, f, g, h => [a, b, c, d, e, f, g, h]
  | (ki, wi) :: rest, a, b, c, d, e, f, g, h =>
    let t1 := add32 h (add32 (bigSigma1 e) (add32 (chFn e f g) (add32 ki wi)))
    let t2 := add32 (bigSigma0 a) (majFn a b c)
    roundLoop rest (add32 t1 t2) a b c (add32 d t1) e f g

def compressBlock (hs : List Nat) (block : List Nat) : List Nat :=
  let ws := schedule64 block
  match hs with
  | [a, b, c, d, e, f, g, h] =>
    List.zipWith add32 hs (roundLoop (sha256K.zip ws) a b c d e f g h)
  | _ => hs

/-- Big-endian 8-byte rendering of a natural number (the message bit length). -/
def be64 (n : Nat) : List Nat := (List.range 8).map (fun i => (n >>> ((7 - i) * 8)) % 256)

def padMessage (msg : List Nat) : List Nat :=
  let l := msg.length
  let zeros := (64 - ((l + 9) % 64)) % 64
  msg ++ [128] ++ List.replicate zeros 0 ++ be64 (8 * l)

def bytesToWords : List Nat → List Nat
  | a :: b :: c :: d :: rest => (((a * 256 + b) * 256 + c) * 256 + d) :: bytesToWords rest
  | _ => []

def wordsToBytes : List Nat → List Nat
  | [] => []
  | w :: rest => (w >>> 24) % 256 :: (w >>> 16) % 256 :: (w >>> 8) % 256 :: w % 256 :: wordsToBytes rest

/-- Split a word list into 16-word chunks (structurally, via an accumulator);
the padded message is always an exact multiple of 16 words. -/
def chunkWords : List Nat → List Nat → List (List Nat) → List (List Nat)
  | [], _, acc => acc.reverse
  | w :: rest, cur, acc =>
    if cur.length == 15 then chunkWords rest [] ((w :: cur).reverse :: acc)
    else chunkWords rest (w :: cur) acc

def sha256 (msg : List Nat) : List Nat :=
  wordsToBytes (List.foldl compressBlock sha256InitH (chunkWords (bytesToWords (padMessage msg)) [] []))

/-! ## `Sha256Algorithm::tagged_hash` (src/merkle.rs lines 18-28)

The `sha2` incremental hasher is modelled as its accumulated input buffer:
`update` appends bytes, `finalize` hashes the buffer, `finalize_fixed_reset`
hashes and clears it, `reset` clears it. -/

structure Sha256Hasher where
  buf : List Nat
deriving DecidableEq

def Sha256Hasher.new : Sha256Hasher := ⟨[]⟩

def Sha256Hasher.update (h : Sha256Hasher) (data : List Nat) : Sha256Hasher := ⟨h.buf ++ data⟩

def Sha256Hasher.finalizeFixedReset (h : Sha256Hasher) : List Nat × Sha256Hasher :=
  (sha256 h.buf, ⟨[]⟩)

def Sha256Hasher.resetState (h : Sha256Hasher) : Sha256Hasher := ⟨[]⟩

def Sha256Hasher.finalize (h : Sha256Hasher) : List Nat := sha256 h.buf

/-- Model of `Sha256Algorithm::tagged_hash` from src/merkle.rs, translated statement by
statement from the Rust body. -/
def Sha256Algorithm.tagged_hash (tag data : List Nat) : List Nat :=
  let hasher := Sha256Hasher.new
  let hasher := hasher.update tag
  let (tag_hash, hasher) := hasher.finalizeFixedReset
  let concatenated := tag_hash ++ tag_hash ++ data
  let hasher := hasher.resetState
  let hasher := hasher.update concatenated
  hasher.finalize

/-! ## MerkleTree (src/merkle.rs)

The tree is generic over `HASH_SIZE` and the hash algorithm; the embedding
passes the size `hsz` and the tagged-hash function `th` explicitly. -/

/-- Padded size of a stored layer: `build_layer` allocates one extra slot for
a duplicated digest when a layer of length `> 1` has odd length
(src/merkle.rs line 105). -/
def padLen (n : Nat) : Nat := if n % 2 = 0 ∨ n = 1 then n else n + 1

/-- Loop body of `count_nodes` (src/merkle.rs lines 30-42).  The `while n > 1`
loop is modelled with explicit fuel; `num_leaves` iterations always suffice
since `n` strictly decreases. -/
def countLoop : Nat → Nat → Nat → Nat
  | 0, _, acc => acc
  | fuel + 1, n, acc =>
    if n > 1 then
      let np := if n % 2 ≠ 0 then n + 1 else n
      countLoop fuel (np / 2) (acc + np)
    else acc

def count_nodes (num_leaves : Nat) : Nat := countLoop num_leaves num_leaves 1

/-- Embeds `concat_hashes` (src/merkle.rs lines 44-56): pairwise concatenation,
duplicating the final element of an odd-length list. -/
def concat_hashes : List (List Nat) → List (List Nat)
  | [] => []
  | [a] => [a ++ a]
  | a :: b :: rest => (a ++ b) :: concat_hashes rest

/-- Embeds `hash_values` (src/merkle.rs lines 58-60). -/
def hash_values (th : List Nat → List Nat → List Nat) (values : List (List Nat))
    (tag : List Nat) : List (List Nat) :=
  values.map (fun x => th tag x)

/-- Embeds `parent_index` (src/merkle.rs lines 62-65).  Callers only pass `index > 0`
(the `while i > 0` guard in `build_proof`), so the `Nat` subtraction agrees
with the Rust `usize` subtraction at every call site. -/
def parent_index (index : Nat) : Nat := (index - 1) / 2

/-- The mutable build state of `MerkleTree`: the node array plus the counters
`total_nodes` and `built_nodes`. -/
structure TreeState where
  nodes : List (List Nat)
  total_nodes : Nat
  built_nodes : Nat
deriving DecidableEq

structure MerkleTree where
  nodes : List (List Nat)
  leaf_tag : List Nat
  branch_tag : List Nat
  num_leaves : Nat
  total_nodes : Nat
  built_nodes : Nat
deriving DecidableEq

inductive Position where
  | Left
  | Right
deriving DecidableEq

/-- Overwrite `ns` starting at position `i` with the elements of the block. -/
def writeBlock : List (List Nat) → Nat → List (List Nat) → List (List Nat)
  | ns, _, [] => ns
  | ns, i, h :: t => writeBlock (ns.set i h) (i + 1) t

/-- Embeds `build_layer` (src/merkle.rs lines 102-116).  The two `Option` guards mark
the places where the Rust code would panic: the `usize` subtraction computing
`start`, and the slice `&mut self.nodes[start..start+layer_nodes]`.  The Rust
code first writes `hashes` into the slice and then copies the just-written
last hash into the padding slot, so the written block is `hashes` followed by
its own last element. -/
def build_layer (st : TreeState) (hashes : List (List Nat)) : Option TreeState :=
  let len := hashes.length
  let layer_nodes := padLen len
  if st.built_nodes + layer_nodes ≤ st.total_nodes then
    let start := st.total_nodes - st.built_nodes - layer_nodes
    if start + layer_nodes ≤ st.nodes.length then
      let block := if len % 2 ≠ 0 ∧ len ≠ 1 then hashes ++ [hashes.getLastD []] else hashes
      some ⟨writeBlock st.nodes start block, st.total_nodes, st.built_nodes + layer_nodes⟩
    else none
  else none

/-- Embeds `build_rec` (src/merkle.rs lines 118-126), with fuel for the layer
recursion; `values.length + 1` layers always suffice since the layer length
at least halves each step. -/
def build_rec (th : List Nat → List Nat → List Nat) (ltag btag : List Nat) :
    Nat → TreeState → List (List Nat) → Bool → Option TreeState
  | 0, _, _, _ => none
  | fuel + 1, st, values, is_leaf =>
    let tag := if is_leaf then ltag else btag
    let hashes := hash_values th values tag
    match build_layer st hashes with
    | none => none
    | some st' =>
      if hashes.length > 1 then build_rec th ltag btag fuel st' (concat_hashes hashes) false
      else some st'

/-- Embeds `MerkleTree::build` (src/merkle.rs lines 131-144), including `initialize`
(lines 95-100): the node array is pre-allocated with `count_nodes` all-zero
digests of length `hsz`. -/
def MerkleTree.build (hsz : Nat) (th : List Nat → List Nat → List Nat)
    (values : List (List Nat)) (leaf_tag branch_tag : List Nat) : Option MerkleTree :=
  let total := count_nodes values.length
  let st0 : TreeState := ⟨List.replicate total (List.replicate hsz 0), total, 0⟩
  (build_rec th leaf_tag branch_tag (values.length + 1) st0 values true).map
    (fun st => ⟨st.nodes, leaf_tag, branch_tag, values.length, st.total_nodes, st.built_nodes⟩)

/-- Embeds `get_root` (src/merkle.rs lines 147-149): `self.nodes[0]`.  The node array
always has at least one slot (`count_nodes` starts from 1), so the default is
never read on a built tree. -/
def MerkleTree.get_root (t : MerkleTree) : List Nat := t.nodes.getD 0 []

/-- Embeds `get_sibling` (src/merkle.rs lines 152-159).  Only called with
`index > 0` from `build_proof`, where the `Nat` subtraction agrees with
Rust. -/
def MerkleTree.get_sibling (t : MerkleTree) (index : Nat) : Position × List Nat :=
  if index % 2 = 0 then (Position.Left, t.nodes.getD (index - 1) [])
  else (Position.Right, t.nodes.getD (index + 1) [])

/-- The `while i > 0` loop of `build_proof` (src/merkle.rs lines 162-171),
with fuel; starting fuel `i` suffices since `parent_index` at least halves
the index. -/
def buildProofLoop (t : MerkleTree) : Nat → Nat → List (Position × List Nat)
  | 0, _ => []
  | fuel + 1, i =>
    if i > 0 then t.get_sibling i :: buildProofLoop t fuel (parent_index i) else []

def MerkleTree.build_proof (t : MerkleTree) (index : Nat) : List (Position × List Nat) :=
  buildProofLoop t index index

/-- Embeds `find_leaf` (src/merkle.rs lines 173-180): scan indices
`(total_nodes - num_leaves + 1) .. total_nodes` in order for the first node
equal to `hash`. -/
def MerkleTree.find_leaf (t : MerkleTree) (hash : List Nat) : Option Nat :=
  (List.range' (t.total_nodes - t.num_leaves + 1)
      (t.total_nodes - (t.total_nodes - t.num_leaves + 1))).find?
    (fun i => t.nodes.getD i [] == hash)

/-- Embeds `get_proof` (src/merkle.rs lines 184-190). -/
def MerkleTree.get_proof (th : List Nat → List Nat → List Nat) (t : MerkleTree)
    (value : List Nat) : Option (List (Position × List Nat)) :=
  let hash := th t.leaf_tag value
  match t.find_leaf hash with
  | some index => some (t.build_proof index)
  | none => none

/-! ## InMemoryDatabase (src/db.rs) -/

/-- Decimal digits of `n`, most significant first, as produced by Rust's
`{}` formatting of a `u64`; the fuel `n` always suffices since `n / 10`
strictly decreases. -/
def decimalLoop : Nat → Nat → List Nat
  | 0, n => [n % 10]
  | fuel + 1, n => if n < 10 then [n] else decimalLoop fuel (n / 10) ++ [n % 10]

def decimalBytes (n : Nat) : List Nat := (decimalLoop n n).map (fun d => 48 + d)

/-- Embeds `serialize_user` (src/db.rs lines 28-30): the bytes of
`format!("({},{}", user_id, balance)` — `'('` (byte 40), the decimal id,
`','` (byte 44), the decimal balance, with no closing `')'`. -/
def serialize_user (user_id balance : Nat) : List Nat :=
  40 :: decimalBytes user_id ++ 44 :: decimalBytes balance

structure InMemoryDatabase where
  users : List (Nat × Nat)
  tree : MerkleTree
deriving DecidableEq

/-- Lookup in a `HashMap` built by `collect()` from a pair list: for
duplicate keys the last insertion wins. -/
def hashMapGet (l : List (Nat × Nat)) (k : Nat) : Option Nat :=
  (l.reverse.find? (fun r => r.1 == k)).map (fun r => r.2)

/-- Embeds `InMemoryDatabase::create` (src/db.rs lines 33-38), for the SHA-256
instantiation used by the binary (`HASH_SIZE = 32`). -/
def InMemoryDatabase.create (th : List Nat → List Nat → List Nat)
    (user_data : List (Nat × Nat)) (leaf_tag branch_tag : List Nat) :
    Option InMemoryDatabase :=
  let serialized := user_data.map (fun r => serialize_user r.1 r.2)
  (MerkleTree.build 32 th serialized leaf_tag branch_tag).map
    (fun tree => ⟨user_data, tree⟩)

/-- Embeds `InMemoryDatabase::get_balance` (src/db.rs lines 40-42). -/
def InMemoryDatabase.get_balance (db : InMemoryDatabase) (user_id : Nat) : Option Nat :=
  hashMapGet db.users user_id

/-- Embeds `InMemoryDatabase::get_proof` (src/db.rs lines 48-52). -/
def InMemoryDatabase.get_proof (th : List Nat → List Nat → List Nat)
    (db : InMemoryDatabase) (user_id : Nat) : Option (List (Position × List Nat)) :=
  match db.get_balance user_id with
  | none => none
  | some balance => db.tree.get_proof th (serialize_user user_id balance)

/-! ## Verification contract

Modelled from the spec: proof verification is not implemented in this
repository; §4.3 of the spec defines the contract a verifier must satisfy —
starting from the leaf hash, `Left(s)` combines as
`tagged_hash(branch_tag, s || current)` and `Right(s)` as
`tagged_hash(branch_tag, current || s)`, and the final value must equal the
published root. -/
def runProof (th : List Nat → List Nat → List Nat) (branch_tag : List Nat)
    (proof : List (Position × List Nat)) (leaf_hash : List Nat) : List Nat :=
  proof.foldl
    (fun current item =>
      match item.1 with
      | Position.Left => th branch_tag (item.2 ++ current)
      | Position.Right => th branch_tag (current ++ item.2))
    leaf_hash

/-! ## Concrete instances used by the claims -/

def strBytes (s : String) : List Nat := s.toList.map Char.toNat

def btcTag : List Nat := strBytes "Bitcoin_Transaction"

def sha256T : List Nat → List Nat → List Nat := Sha256Algorithm.tagged_hash

def vals5 : List (List Nat) :=
  [strBytes "aaa", strBytes "bbb", strBytes "ccc", strBytes "ddd", strBytes "eee"]

def vals9 : List (List Nat) :=
  [strBytes "aaa", strBytes "bbb", strBytes "ccc", strBytes "ddd", strBytes "eee",
   strBytes "fff", strBytes "ggg", strBytes "hhh", strBytes "iii"]

/-- Sizes of the successive (unpadded) hash layers produced by `build_rec`:
`n, ⌈n/2⌉, …, 1`, modelled with the same fuel pattern as the build loop. -/
def layerSizesLoop : Nat → Nat → List Nat
  | 0, _ => []
  | fuel + 1, len => len :: (if len > 1 then layerSizesLoop fuel (padLen len / 2) else [])

def layerSizes (n : Nat) : List Nat := layerSizesLoop (n + 1) n

/-- Total number of stored slots: the sum of the padded layer sizes. -/
def padSum (n : Nat) : Nat := ((layerSizes n).map padLen).sum

/-- The root digest determined by the recursive layer construction of
`build_rec`: repeatedly concatenate pairwise and hash with the branch tag
until one digest remains. -/
def rootHashLoop (th : List Nat → List Nat → List Nat) (btag : List Nat) :
    Nat → List (List Nat) → List Nat
  | 0, _ => []
  | fuel + 1, hs =>
    if hs.length > 1 then rootHashLoop th btag fuel ((concat_hashes hs).map (th btag))
    else hs.headD []

def rootHash (th : List Nat → List Nat → List Nat) (btag : List Nat)
    (hs : List (List Nat)) : List Nat :=
  rootHashLoop th btag (hs.length + 1) hs

/-- Boolean check of the phantom duplicates, mirroring the layer recursion of
`build_rec`: for every layer — the current one has unpadded hash list
`hashes` and was written at offset `start = total - built - padLen len` —
if its length is odd and `> 1` then the stored slot just past its digests
(`start + len`) holds the same digest as its last one (`start + len - 1`).
Walks on to the next layer with the updated `built` counter, exactly as
`build_rec` does. -/
def dupSlotsOk (th : List Nat → List Nat → List Nat) (bt : List Nat) (total : Nat) :
    Nat → Nat → List (List Nat) → List (List Nat) → Bool
  | 0, _, _, _ => true
  | fuel + 1, built, hashes, nodes =>
    let len := hashes.length
    let start := total - built - padLen len
    (if len % 2 ≠ 0 ∧ len ≠ 1 then
      nodes.getD (start + len) [] == nodes.getD (start + len - 1) []
     else true)
    && (if len > 1 then
      dupSlotsOk th bt total fuel (built + padLen len)
        ((concat_hashes hashes).map (th bt)) nodes
     else true)
termination_by structural fuel => fuel

/-! ## Theorems

General lemmas about the build arithmetic, the claim theorems, and their
witnesses. -/

theorem padLen_eq_of_two_le (n : Nat) (h : 2 ≤ n) :
    (if n % 2 ≠ 0 then n + 1 else n) = padLen n := by
  simp only [padLen]
  rcases Nat.even_or_odd n with he | ho
  · have h0 : n % 2 = 0 := Nat.even_iff.mp he
    simp [h0]
  · have h1 : n % 2 = 1 := Nat.odd_iff.mp ho
    have hne : n ≠ 1 := by omega
    simp [h1, hne]

theorem padLen_div_two (n : Nat) (h : 2 ≤ n) : padLen n / 2 = (n + 1) / 2 := by
  simp only [padLen]
  by_cases hc : n % 2 = 0 ∨ n = 1
  · rw [if_pos hc]
    rcases hc with hc | hc
    · omega
    · omega
  · rw [if_neg hc]

theorem padLen_div_lt (n : Nat) (h : 2 ≤ n) : padLen n / 2 < n := by
  rw [padLen_div_two n h]; omega

theorem padLen_div_pos (n : Nat) (h : 2 ≤ n) : 1 ≤ padLen n / 2 := by
  rw [padLen_div_two n h]; omega

theorem layerSizesLoop_fuel (n : Nat) :
    ∀ f₁ f₂, n < f₁ → n < f₂ → layerSizesLoop f₁ n = layerSizesLoop f₂ n := by
  induction n using Nat.strongRecOn with
  | ind n ih =>
    intro f₁ f₂ h₁ h₂
    obtain ⟨g₁, rfl⟩ : ∃ g, f₁ = g + 1 := ⟨f₁ - 1, by omega⟩
    obtain ⟨g₂, rfl⟩ : ∃ g, f₂ = g + 1 := ⟨f₂ - 1, by omega⟩
    simp only [layerSizesLoop]
    by_cases hn : n > 1
    · have hlt := padLen_div_lt n hn
      rw [if_pos hn, if_pos hn, ih (padLen n / 2) hlt g₁ g₂ (by omega) (by omega)]
    · rw [if_neg hn, if_neg hn]

theorem padSum_one : padSum 1 = 1 := by decide

theorem padSum_step (n : Nat) (h : 2 ≤ n) :
    padSum n = padLen n + padSum (padLen n / 2) := by
  have hlt := padLen_div_lt n h
  have hmain : layerSizes n = n :: layerSizes (padLen n / 2) := by
    unfold layerSizes
    conv_lhs => rw [layerSizesLoop]
    rw [if_pos (show n > 1 by omega)]
    rw [layerSizesLoop_fuel (padLen n / 2) n (padLen n / 2 + 1) (by omega) (by omega)]
  simp [padSum, hmain]

theorem padLen_le_padSum (n : Nat) (h : 1 ≤ n) : padLen n ≤ padSum n := by
  rcases Nat.lt_or_ge n 2 with h2 | h2
  · have hn : n = 1 := by omega
    subst hn
    decide
  · rw [padSum_step n h2]; omega

theorem countLoop_eq (n : Nat) :
    ∀ fuel acc, 1 ≤ n → n ≤ fuel → countLoop fuel n acc + 1 = acc + padSum n := by
  induction n using Nat.strongRecOn with
  | ind n ih =>
    intro fuel acc h1 hf
    obtain ⟨g, rfl⟩ : ∃ g, fuel = g + 1 := ⟨fuel - 1, by omega⟩
    simp only [countLoop]
    by_cases hn : n > 1
    · rw [if_pos hn]
      have h2 : 2 ≤ n := hn
      rw [padLen_eq_of_two_le n h2]
      have hlt := padLen_div_lt n h2
      have hpos := padLen_div_pos n h2
      rw [ih (padLen n / 2) hlt g (acc + padLen n) hpos (by omega)]
      rw [padSum_step n h2]
      omega
    · rw [if_neg hn]
      have : n = 1 := by omega
      subst this
      simp [padSum_one]

theorem count_nodes_eq_padSum (n : Nat) (h : 1 ≤ n) : count_nodes n = padSum n := by
  have := countLoop_eq n n 1 h (le_refl n)
  simp only [count_nodes]
  omega

theorem hash_values_length (th : List Nat → List Nat → List Nat)
    (values : List (List Nat)) (tag : List Nat) :
    (hash_values th values tag).length = values.length := by
  simp [hash_values]

theorem concat_hashes_length :
    ∀ hs : List (List Nat), (concat_hashes hs).length = (hs.length + 1) / 2
  | [] => rfl
  | [a] => by norm_num [concat_hashes]
  | a :: b :: rest => by
    simp only [concat_hashes, List.length_cons, concat_hashes_length rest]
    omega

theorem writeBlock_length :
    ∀ (block ns : List (List Nat)) (i : Nat), (writeBlock ns i block).length = ns.length
  | [], _, _ => rfl
  | h :: t, ns, i => by
    simp only [writeBlock, writeBlock_length t (ns.set i h) (i + 1), List.length_set]

theorem getD_set_self (ns : List (List Nat)) (i : Nat) (h : List Nat)
    (hi : i < ns.length) : (ns.set i h).getD i [] = h := by
  induction ns generalizing i with
  | nil => simp at hi
  | cons a t iht =>
    cases i with
    | zero => rfl
    | succ j =>
      simp only [List.set_cons_succ, List.getD_cons_succ]
      exact iht j (by simpa using hi)

theorem getD_set_ne (ns : List (List Nat)) (j i : Nat) (h : List Nat)
    (hne : i ≠ j) : (ns.set j h).getD i [] = ns.getD i [] := by
  induction ns generalizing i j with
  | nil => rfl
  | cons a t iht =>
    cases j with
    | zero =>
      cases i with
      | zero => omega
      | succ k => rfl
    | succ m =>
      cases i with
      | zero => rfl
      | succ k =>
        simp only [List.set_cons_succ, List.getD_cons_succ]
        exact iht m k (by omega)

theorem writeBlock_getD_outside :
    ∀ (block ns : List (List Nat)) (start i : Nat),
      i < start ∨ start + block.length ≤ i →
      (writeBlock ns start block).getD i [] = ns.getD i []
  | [], _, _, _, _ => rfl
  | h :: t, ns, start, i, hout => by
    have hclen : (h :: t).length = t.length + 1 := rfl
    have hrec := writeBlock_getD_outside t (ns.set start h) (start + 1) i
      (by rcases hout with ho | ho
          · exact Or.inl (by omega)
          · exact Or.inr (by rw [hclen] at ho; omega))
    simp only [writeBlock, hrec]
    exact getD_set_ne ns start i h
      (by rcases hout with ho | ho
          · omega
          · rw [hclen] at ho; omega)

theorem writeBlock_getD_in :
    ∀ (block ns : List (List Nat)) (start j : Nat),
      j < block.length → start + block.length ≤ ns.length →
      (writeBlock ns start block).getD (start + j) [] = block.getD j []
  | [], _, _, _, hj, _ => by simp at hj
  | h :: t, ns, start, j, hj, hlen => by
    cases j with
    | zero =>
      show (writeBlock (ns.set start h) (start + 1) t).getD (start + 0) [] = h
      rw [writeBlock_getD_outside t (ns.set start h) (start + 1) (start + 0)
        (Or.inl (by omega))]
      exact getD_set_self ns start h (by simp at hlen; omega)
    | succ k =>
      have : start + (k + 1) = (start + 1) + k := by omega
      rw [this]
      show (writeBlock (ns.set start h) (start + 1) t).getD ((start + 1) + k) []
        = (h :: t).getD (k + 1) []
      rw [writeBlock_getD_in t (ns.set start h) (start + 1) k
        (by simp at hj; omega) (by simp at hlen ⊢; omega)]
      rfl

theorem getD_last_index :
    ∀ l : List (List Nat), l ≠ [] → l.getD (l.length - 1) [] = l.getLastD [] := by
  intro l
  induction l with
  | nil => intro h; simp at h
  | cons a t iht =>
    intro _
    cases t with
    | nil => rfl
    | cons b u =>
      have ht : (b :: u) ≠ [] := by simp
      have hlen : (a :: b :: u).length - 1 = ((b :: u).length - 1) + 1 := by
        simp
      rw [hlen, List.getD_cons_succ, iht ht]
      simp [List.getLastD_cons]

/-- Characterization of a successful `build_layer` call: the two guards held
(no underflow, slice in bounds) and the result wrote the padded block at
`start`. -/
theorem build_layer_eq (st : TreeState) (hashes : List (List Nat)) (st₁ : TreeState)
    (h : build_layer st hashes = some st₁) :
    st.built_nodes + padLen hashes.length ≤ st.total_nodes
    ∧ st.total_nodes - st.built_nodes - padLen hashes.length + padLen hashes.length
        ≤ st.nodes.length
    ∧ st₁ = ⟨writeBlock st.nodes
        (st.total_nodes - st.built_nodes - padLen hashes.length)
        (if hashes.length % 2 ≠ 0 ∧ hashes.length ≠ 1 then
          hashes ++ [hashes.getLastD []] else hashes),
        st.total_nodes, st.built_nodes + padLen hashes.length⟩ := by
  simp only [build_layer] at h
  by_cases g1 : st.built_nodes + padLen hashes.length ≤ st.total_nodes
  · rw [if_pos g1] at h
    by_cases g2 : st.total_nodes - st.built_nodes - padLen hashes.length
        + padLen hashes.length ≤ st.nodes.length
    · rw [if_pos g2] at h
      exact ⟨g1, g2, (Option.some.injEq _ _).mp h.symm⟩
    · rw [if_neg g2] at h
      cases h
  · rw [if_neg g1] at h
    cases h

/-- The padded block written by `build_layer` has exactly `padLen` elements. -/
theorem block_length (hashes : List (List Nat)) :
    (if hashes.length % 2 ≠ 0 ∧ hashes.length ≠ 1 then
      hashes ++ [hashes.getLastD []] else hashes).length = padLen hashes.length := by
  by_cases hc : hashes.length % 2 ≠ 0 ∧ hashes.length ≠ 1
  · rw [if_pos hc]
    simp only [padLen]
    rw [if_neg (by omega)]
    simp
  · rw [if_neg hc]
    simp only [padLen]
    rw [if_pos (by omega)]

/-- One-step unfolding of `dupSlotsOk`. -/
theorem dupSlotsOk_succ (th : List Nat → List Nat → List Nat) (bt : List Nat)
    (total fuel built : Nat) (hashes nodes : List (List Nat)) :
    dupSlotsOk th bt total (fuel + 1) built hashes nodes =
      ((if hashes.length % 2 ≠ 0 ∧ hashes.length ≠ 1 then
        nodes.getD (total - built - padLen hashes.length + hashes.length) []
          == nodes.getD (total - built - padLen hashes.length + hashes.length - 1) []
       else true)
      && (if hashes.length > 1 then
        dupSlotsOk th bt total fuel (built + padLen hashes.length)
          ((concat_hashes hashes).map (th bt)) nodes
       else true)) := rfl

/-- Everything `build_rec` writes lies strictly below the already-built
region: slots at index `total_nodes - built_nodes` and above are left
untouched. -/
theorem build_rec_preserves (th : List Nat → List Nat → List Nat) (lt bt : List Nat) :
    ∀ (fuel : Nat) (st : TreeState) (values : List (List Nat)) (flag : Bool)
      (st' : TreeState),
      build_rec th lt bt fuel st values flag = some st' →
      ∀ i, st.total_nodes - st.built_nodes ≤ i →
        st'.nodes.getD i [] = st.nodes.getD i [] := by
  intro fuel
  induction fuel with
  | zero => intro st values flag st' hsome; cases hsome
  | succ f ihf =>
    intro st values flag st' hsome i hi
    set hs := hash_values th values (if flag then lt else bt) with hhs
    rcases hbl : build_layer st hs with _ | st₁
    · simp [build_rec, hbl] at hsome
    · simp only [build_rec, hbl] at hsome
      obtain ⟨g1, g2, rfl⟩ := build_layer_eq st hs st₁ hbl
      have hstep : ∀ k, st.total_nodes - st.built_nodes ≤ k →
          (writeBlock st.nodes (st.total_nodes - st.built_nodes - padLen hs.length)
            (if hs.length % 2 ≠ 0 ∧ hs.length ≠ 1 then
              hs ++ [hs.getLastD []] else hs)).getD k [] = st.nodes.getD k [] := by
        intro k hk
        exact writeBlock_getD_outside _ st.nodes _ k
          (Or.inr (by rw [block_length]; omega))
      by_cases hgt : hs.length > 1
      · rw [if_pos hgt] at hsome
        have hpre := ihf _ (concat_hashes hs) false st' hsome i
          (by show st.total_nodes - (st.built_nodes + padLen hs.length) ≤ i
              omega)
        rw [hpre]
        exact hstep i hi
      · rw [if_neg hgt] at hsome
        obtain rfl := (Option.some.injEq _ _).mp hsome.symm
        exact hstep i hi

/-! ## The main build invariant

Successful construction, conservation of the counters, and the content of
slot 0 (the root) — by strong induction on the layer length. -/

theorem build_rec_spec (th : List Nat → List Nat → List Nat) (lt bt : List Nat)
    (L : Nat) :
    ∀ (fuel : Nat) (st : TreeState) (flag : Bool) (values : List (List Nat)),
    values.length = L → 1 ≤ L → L < fuel →
    st.nodes.length = st.total_nodes →
    st.built_nodes + padSum L = st.total_nodes →
    ∃ st', build_rec th lt bt fuel st values flag = some st'
      ∧ st'.total_nodes = st.total_nodes
      ∧ st'.nodes.length = st.nodes.length
      ∧ st'.built_nodes = st.total_nodes
      ∧ st'.nodes.getD 0 [] =
          rootHashLoop th bt fuel (values.map (th (if flag then lt else bt)))
      ∧ dupSlotsOk th bt st.total_nodes fuel st.built_nodes
          (values.map (th (if flag then lt else bt))) st'.nodes = true := by
  induction L using Nat.strongRecOn with
  | ind L ih =>
    intro fuel st flag values hlen hL hfuel hnl hinv
    obtain ⟨f, rfl⟩ : ∃ f, fuel = f + 1 := ⟨fuel - 1, by omega⟩
    set tag := if flag then lt else bt with htag
    have hhlen : (hash_values th values tag).length = L := by
      rw [hash_values_length, hlen]
    set hs : List (List Nat) := hash_values th values tag with hhs
    have hple : padLen L ≤ padSum L := padLen_le_padSum L hL
    have hguard1 : st.built_nodes + padLen hs.length ≤ st.total_nodes := by
      rw [hhlen]; omega
    have hguard2 : st.total_nodes - st.built_nodes - padLen hs.length + padLen hs.length
        ≤ st.nodes.length := by
      rw [hhlen, hnl]; omega
    have hbl : build_layer st hs = some
        ⟨writeBlock st.nodes (st.total_nodes - st.built_nodes - padLen hs.length)
            (if hs.length % 2 ≠ 0 ∧ hs.length ≠ 1 then hs ++ [hs.getLastD []] else hs),
          st.total_nodes, st.built_nodes + padLen hs.length⟩ := by
      simp only [build_layer]
      rw [if_pos hguard1, if_pos hguard2]
    rcases Nat.lt_or_ge L 2 with h2 | h2
    · -- base layer: a single hash, written at slot 0
      have hL1 : L = 1 := by omega
      subst hL1
      rcases values with _ | ⟨v, vs⟩
      · simp at hlen
      · have hvs : vs = [] := by simpa using hlen
        subst hvs
        have hone : hs = [th tag v] := rfl
        have hblock : (if hs.length % 2 ≠ 0 ∧ hs.length ≠ 1 then hs ++ [hs.getLastD []] else hs)
            = [th tag v] := by rw [hone]; simp
        have hstart : st.total_nodes - st.built_nodes - padLen hs.length = 0 := by
          rw [hhlen]
          have : padLen 1 = 1 := by decide
          rw [this]
          have : padSum 1 = 1 := padSum_one
          omega
        refine ⟨⟨writeBlock st.nodes 0 [th tag v], st.total_nodes,
          st.built_nodes + padLen hs.length⟩, ?_, rfl, ?_, ?_, ?_, ?_⟩
        · simp only [build_rec, hbl, hblock, hstart]
          rw [if_neg (by rw [hhlen]; omega)]
        · exact writeBlock_length [th tag v] st.nodes 0
        · show st.built_nodes + padLen hs.length = st.total_nodes
          rw [hhlen]
          have : padLen 1 = 1 := by decide
          have h1 : padSum 1 = 1 := padSum_one
          omega
        · have hw : writeBlock st.nodes 0 [th tag v] = st.nodes.set 0 (th tag v) := rfl
          have hpos : 0 < st.nodes.length := by
            rw [hnl]
            have h1 : padSum 1 = 1 := padSum_one
            omega
          show (writeBlock st.nodes 0 [th tag v]).getD 0 [] = _
          rw [hw, getD_set_self st.nodes 0 (th tag v) hpos]
          have hnot : ¬ (([v].map (th tag)).length > 1) := by simp
          simp only [rootHashLoop]
          rw [if_neg hnot]
          simp
        · rw [dupSlotsOk_succ]
          have hone' : ([v].map (th tag)).length = 1 := by simp
          rw [hone']
          norm_num
    · -- recursive layer
      have hgt : hs.length > 1 := by omega
      set st₁ : TreeState := ⟨writeBlock st.nodes
          (st.total_nodes - st.built_nodes - padLen hs.length)
          (if hs.length % 2 ≠ 0 ∧ hs.length ≠ 1 then hs ++ [hs.getLastD []] else hs),
        st.total_nodes, st.built_nodes + padLen hs.length⟩ with hst₁
      have hlen' : (concat_hashes hs).length = (L + 1) / 2 := by
        rw [concat_hashes_length, hhlen]
      have hLlt : (L + 1) / 2 < L := by omega
      have hL1' : 1 ≤ (L + 1) / 2 := by omega
      have hnl₁ : st₁.nodes.length = st₁.total_nodes := by
        simp only [hst₁]
        rw [writeBlock_length, hnl]
      have hinv₁ : st₁.built_nodes + padSum ((L + 1) / 2) = st₁.total_nodes := by
        simp only [hst₁]
        have hstep := padSum_step L h2
        rw [padLen_div_two L h2] at hstep
        rw [hhlen]
        omega
      obtain ⟨st', heq, htot, hlen'', hbuilt, hroot, hdup⟩ :=
        ih ((L + 1) / 2) hLlt f st₁ false (concat_hashes hs) hlen' hL1' (by omega) hnl₁ hinv₁
      have hmaplen : (values.map (th tag)).length = L := by
        rw [List.length_map, hlen]
      refine ⟨st', ?_, ?_, ?_, ?_, ?_, ?_⟩
      · simp only [build_rec, hbl]
        rw [if_pos hgt]
        exact heq
      · rw [htot]
      · rw [hlen'']
        simp only [hst₁]
        rw [writeBlock_length]
      · rw [hbuilt]
      · rw [hroot]
        have hlenmap : (values.map (th tag)).length > 1 := by
          rw [List.length_map, hlen]; omega
        have hr : rootHashLoop th bt (f + 1) (values.map (th tag))
            = rootHashLoop th bt f ((concat_hashes (values.map (th tag))).map (th bt)) := by
          conv_lhs => rw [rootHashLoop]
          rw [if_pos hlenmap]
        rw [hr]
        simp [hhs, hash_values]
      · -- this layer's phantom-duplicate slot, then all deeper layers
        rw [dupSlotsOk_succ, hmaplen, Bool.and_eq_true]
        constructor
        · -- at odd length the slot past the layer duplicates its last digest
          by_cases hodd : L % 2 ≠ 0 ∧ L ≠ 1
          · rw [if_pos hodd]
            set start := st.total_nodes - st.built_nodes - padLen L with hstart
            have hplodd : padLen L = L + 1 := by
              simp only [padLen]
              rw [if_neg (by omega)]
            have hblodd : (if hs.length % 2 ≠ 0 ∧ hs.length ≠ 1 then
                hs ++ [hs.getLastD []] else hs) = hs ++ [hs.getLastD []] := by
              rw [if_pos (by rw [hhlen]; exact hodd)]
            have hpres := build_rec_preserves th lt bt f st₁ (concat_hashes hs) false st' heq
            have hth : st₁.total_nodes - st₁.built_nodes = start := by
              simp only [hst₁]
              rw [hhlen, hstart]
              omega
            have hgesL : start ≤ start + L := by omega
            have hgesL1 : start ≤ start + L - 1 := by omega
            have hwin : ∀ j, j < L + 1 →
                st₁.nodes.getD (start + j) [] = (hs ++ [hs.getLastD []]).getD j [] := by
              intro j hj
              show (writeBlock st.nodes
                  (st.total_nodes - st.built_nodes - padLen hs.length)
                  (if hs.length % 2 ≠ 0 ∧ hs.length ≠ 1 then
                    hs ++ [hs.getLastD []] else hs)).getD (start + j) [] = _
              rw [hblodd]
              have harg : st.total_nodes - st.built_nodes - padLen hs.length = start := by
                rw [hhlen, hstart]
              rw [harg]
              refine writeBlock_getD_in (hs ++ [hs.getLastD []]) st.nodes start j ?_ ?_
              · simp [hhlen]; omega
              · have := hguard2
                rw [hhlen, hplodd] at this
                simp [hhlen]
                omega
            have hAt : st'.nodes.getD (start + L) [] = hs.getLastD [] := by
              rw [hpres (start + L) (by rw [hth]; omega)]
              rw [hwin L (by omega)]
              rw [List.getD_append_right hs [hs.getLastD []] [] L (by rw [hhlen])]
              rw [hhlen]
              simp
            have hAt1 : st'.nodes.getD (start + L - 1) [] = hs.getLastD [] := by
              have hrw : start + L - 1 = start + (L - 1) := by omega
              rw [hpres (start + L - 1) (by rw [hth]; omega), hrw]
              rw [hwin (L - 1) (by omega)]
              rw [List.getD_append hs [hs.getLastD []] [] (L - 1) (by rw [hhlen]; omega)]
              have hne : hs ≠ [] := by
                intro hc
                rw [hc] at hhlen
                simp at hhlen
                omega
              have := getD_last_index hs hne
              rw [hhlen] at this
              rw [this]
            rw [hAt, hAt1]
            exact beq_self_eq_true _
          · rw [if_neg hodd]
        · -- deeper layers, from the induction hypothesis
          rw [if_pos (by omega : L > 1)]
          have hcast : ((concat_hashes (values.map (th tag))).map (th bt))
              = ((concat_hashes hs).map (th (if false then lt else bt))) := by
            simp [hhs, hash_values]
          rw [hcast]
          have htots : st.total_nodes = st₁.total_nodes := by simp [hst₁]
          have hbuilts : st.built_nodes + padLen L = st₁.built_nodes := by
            simp [hst₁, hhlen]
          rw [htots, hbuilts]
          exact hdup


theorem layerSizesLoop_head? (fuel n : Nat) (h : 1 ≤ fuel) :
    (layerSizesLoop fuel n).head? = some n := by
  obtain ⟨g, rfl⟩ : ∃ g, fuel = g + 1 := ⟨fuel - 1, by omega⟩
  rw [layerSizesLoop]
  rfl

theorem layerSizesLoop_getLast? (n : Nat) :
    ∀ fuel, 1 ≤ n → n < fuel → (layerSizesLoop fuel n).getLast? = some 1 := by
  induction n using Nat.strongRecOn with
  | ind n ih =>
    intro fuel h1 hf
    obtain ⟨g, rfl⟩ : ∃ g, fuel = g + 1 := ⟨fuel - 1, by omega⟩
    rw [layerSizesLoop]
    by_cases hn : n > 1
    · rw [if_pos hn]
      have hlt := padLen_div_lt n hn
      have hpos := padLen_div_pos n hn
      have hrec := ih (padLen n / 2) hlt g hpos (by omega)
      obtain ⟨x, xs, hx⟩ : ∃ x xs, layerSizesLoop g (padLen n / 2) = x :: xs := by
        rcases hl : layerSizesLoop g (padLen n / 2) with _ | ⟨x, xs⟩
        · rw [hl] at hrec; simp at hrec
        · exact ⟨x, xs, rfl⟩
      rw [hx]
      rw [hx] at hrec
      rw [List.getLast?_cons_cons]
      exact hrec
    · rw [if_neg hn]
      have : n = 1 := by omega
      subst this
      rfl

theorem layerSizesLoop_chain (n : Nat) :
    ∀ fuel, n < fuel →
      List.Chain' (fun a b => b = (a + 1) / 2) (layerSizesLoop fuel n) := by
  induction n using Nat.strongRecOn with
  | ind n ih =>
    intro fuel hf
    obtain ⟨g, rfl⟩ : ∃ g, fuel = g + 1 := ⟨fuel - 1, by omega⟩
    rw [layerSizesLoop]
    by_cases hn : n > 1
    · rw [if_pos hn]
      have hlt := padLen_div_lt n hn
      refine List.chain'_cons'.mpr ⟨?_, ih (padLen n / 2) hlt g (by omega)⟩
      intro y hy
      have hg : 1 ≤ g := by omega
      rw [layerSizesLoop_head? g (padLen n / 2) hg] at hy
      simp at hy
      subst hy
      exact padLen_div_two n hn
    · rw [if_neg hn]
      exact List.chain'_singleton n

/-- Shared consequence of `build_rec_spec` at the top level of
`MerkleTree::build`. -/
theorem build_spec (hsz : Nat) (th : List Nat → List Nat → List Nat)
    (lt bt : List Nat) (values : List (List Nat)) (h : values ≠ []) :
    ∃ t, MerkleTree.build hsz th values lt bt = some t
      ∧ t.leaf_tag = lt ∧ t.branch_tag = bt ∧ t.num_leaves = values.length
      ∧ t.total_nodes = count_nodes values.length
      ∧ t.built_nodes = count_nodes values.length
      ∧ t.nodes.length = count_nodes values.length
      ∧ t.get_root = rootHash th bt (values.map (th lt))
      ∧ dupSlotsOk th bt t.total_nodes (values.length + 1) 0
          (values.map (th lt)) t.nodes = true := by
  have hL : 1 ≤ values.length := List.length_pos.mpr h
  have hcnt := count_nodes_eq_padSum values.length hL
  have hst : (⟨List.replicate (count_nodes values.length) (List.replicate hsz 0),
      count_nodes values.length, 0⟩ : TreeState).nodes.length
      = (⟨List.replicate (count_nodes values.length) (List.replicate hsz 0),
      count_nodes values.length, 0⟩ : TreeState).total_nodes := by
    simp
  obtain ⟨st', heq, htot, hlen, hbuilt, hroot, hdup⟩ :=
    build_rec_spec th lt bt values.length (values.length + 1)
      ⟨List.replicate (count_nodes values.length) (List.replicate hsz 0),
        count_nodes values.length, 0⟩
      true values rfl hL (by omega) hst (by simpa using hcnt.symm)
  refine ⟨⟨st'.nodes, lt, bt, values.length, st'.total_nodes, st'.built_nodes⟩,
    ?_, rfl, rfl, rfl, ?_, ?_, ?_, ?_, ?_⟩
  · simp only [MerkleTree.build]
    rw [heq]
    rfl
  · simpa using htot
  · rw [hbuilt]
  · rw [hlen] at *
    simpa using hlen
  · show st'.nodes.getD 0 [] = _
    rw [hroot]
    simp only [rootHash, List.length_map]
    simp
  · show dupSlotsOk th bt st'.total_nodes (values.length + 1) 0
        (values.map (th lt)) st'.nodes = true
    rw [htot]
    simpa using hdup

theorem decimalLoop_foldl :
    ∀ fuel n, n ≤ fuel → (decimalLoop fuel n).foldl (fun a d => 10 * a + d) 0 = n := by
  intro fuel
  induction fuel with
  | zero =>
    intro n hn
    have : n = 0 := by omega
    subst this
    rfl
  | succ f ihf =>
    intro n hn
    rw [decimalLoop]
    by_cases hlt : n < 10
    · rw [if_pos hlt]
      simp
    · rw [if_neg hlt]
      rw [List.foldl_append]
      rw [ihf (n / 10) (by omega)]
      simp
      omega

theorem decimalLoop_lt_ten :
    ∀ fuel n d, d ∈ decimalLoop fuel n → d < 10 := by
  intro fuel
  induction fuel with
  | zero =>
    intro n d hd
    simp only [decimalLoop, List.mem_singleton] at hd
    omega
  | succ f ihf =>
    intro n d hd
    rw [decimalLoop] at hd
    by_cases hlt : n < 10
    · rw [if_pos hlt] at hd
      simp only [List.mem_singleton] at hd
      omega
    · rw [if_neg hlt] at hd
      rcases List.mem_append.mp hd with hm | hm
      · exact ihf (n / 10) d hm
      · simp only [List.mem_singleton] at hm
        omega

/-- C8: for every tag and data byte sequence, `Sha256Algorithm::tagged_hash`
computes `H(H(tag) || H(tag) || data)` with `H` = SHA-256 and `||` byte
concatenation; it is a total pure function of its two arguments. -/
theorem tagged_hash_is_nested_sha256 (tag data : List Nat) :
    Sha256Algorithm.tagged_hash tag data = sha256 (sha256 tag ++ sha256 tag ++ data) := rfl

/-- C7 counterexample: `build` applied to the empty value sequence is not
rejected — it returns a tree, and `get_root` of that tree is the all-zero
digest. -/
theorem empty_build_allzero_counterexample :
    (MerkleTree.build 32 sha256T [] btcTag btcTag).map MerkleTree.get_root
      = some (List.replicate 32 0) := by decide

/-- C7 (amended): `build` on an empty values sequence is not rejected with an
error; for every hash size, hash function and tags it silently returns a
degenerate one-slot tree whose `get_root` is the all-zero digest. -/
theorem empty_build_not_rejected (hsz : Nat) (th : List Nat → List Nat → List Nat)
    (lt bt : List Nat) :
    ∃ t, MerkleTree.build hsz th [] lt bt = some t
      ∧ t.get_root = List.replicate hsz 0 := by
  refine ⟨⟨[List.replicate hsz 0], lt, bt, 0, 1, 0⟩, ?_, ?_⟩
  · rfl
  · rfl

/-- C9: `serialize_user` produces exactly `'('` (byte 40), the decimal digits
of the id, `','` (byte 44), and the decimal digits of the balance — no
closing `')'` (byte 41) anywhere; the digit model really is the decimal
rendering (digits below ten, place-value identity); and the very same
function is used by `create` (construction) and by `get_proof` (lookup). -/
theorem serialize_user_format (th : List Nat → List Nat → List Nat)
    (id balance : Nat) (records : List (Nat × Nat)) (lt bt : List Nat)
    (db : InMemoryDatabase) :
    serialize_user id balance = 40 :: (decimalBytes id ++ 44 :: decimalBytes balance)
    ∧ 41 ∉ serialize_user id balance
    ∧ ((decimalLoop id id).all (fun d => d < 10) = true
        ∧ (decimalLoop id id).foldl (fun a d => 10 * a + d) 0 = id)
    ∧ ((decimalLoop balance balance).all (fun d => d < 10) = true
        ∧ (decimalLoop balance balance).foldl (fun a d => 10 * a + d) 0 = balance)
    ∧ InMemoryDatabase.create th records lt bt
        = (MerkleTree.build 32 th (records.map (fun r => serialize_user r.1 r.2)) lt bt).map
            (fun tree => ⟨records, tree⟩)
    ∧ InMemoryDatabase.get_proof th db id
        = (db.get_balance id).bind (fun b => db.tree.get_proof th (serialize_user id b)) := by
  refine ⟨rfl, ?_, ⟨?_, ?_⟩, ⟨?_, ?_⟩, rfl, ?_⟩
  · intro hmem
    simp only [serialize_user] at hmem
    rcases List.mem_cons.mp hmem with h | hmem
    · omega
    rcases List.mem_append.mp hmem with h | h
    · simp only [decimalBytes] at h
      obtain ⟨d, -, he⟩ := List.mem_map.mp h
      omega
    · rcases List.mem_cons.mp h with h | h
      · omega
      · simp only [decimalBytes] at h
        obtain ⟨d, -, he⟩ := List.mem_map.mp h
        omega
  · refine List.all_eq_true.mpr ?_
    intro d hd
    simpa using decimalLoop_lt_ten id id d hd
  · exact decimalLoop_foldl id id (le_refl id)
  · refine List.all_eq_true.mpr ?_
    intro d hd
    simpa using decimalLoop_lt_ten balance balance d hd
  · exact decimalLoop_foldl balance balance (le_refl balance)
  · rcases hb : db.get_balance id with _ | b
    · simp [InMemoryDatabase.get_proof, hb]
    · simp [InMemoryDatabase.get_proof, hb]

/-- C2: the leaf-scan range of `find_leaf` starts one slot too late, so the
first committed record is unfindable — for the tree built from the single
value `"aaa"`, `get_proof("aaa")` returns `none` even though `"aaa"` is in
the build list (the repository's own tests and the `get_proof` doc comment
require a proof here). -/
theorem first_leaf_unfindable :
    (MerkleTree.build 32 sha256T [strBytes "aaa"] btcTag btcTag).map
      (fun t => (t.num_leaves, t.get_proof sha256T (strBytes "aaa")))
      = some (1, none) := by decide

/-- C3: for the 5-leaf `"Bitcoin_Transaction"` tree, the code returns no proof
at all for `"aaa"` (the spec and the repository's own test expect a 3-item
proof) and a 3-item proof for `"eee"` (the spec and test expect exactly 1
item). -/
theorem five_leaf_proof_lengths_diverge :
    (MerkleTree.build 32 sha256T vals5 btcTag btcTag).map
      (fun t => (t.get_proof sha256T (strBytes "aaa"),
                 (t.get_proof sha256T (strBytes "eee")).map List.length))
      = some (none, some 3) := by decide

/-- C4: at a depth where the path node is the last index of an odd-length
layer (self-paired during construction) the code does NOT omit the step — it
records an item whose digest is the stored duplicate of the path node itself.
For `"eee"` in the 5-leaf tree (in-layer index 4, last of the odd leaf
layer), the proof is three items: `Right(H(leaf,"eee"))` (the duplicated leaf
itself), `Right` of the duplicated second-level node, then the one genuine
item `Left` of the sibling — instead of just the final item. -/
theorem self_paired_depth_records_duplicate :
    (MerkleTree.build 32 sha256T vals5 btcTag btcTag).map
      (fun t => (t.get_proof sha256T (strBytes "eee")).map
        (fun p => (p.map Prod.fst,
                   (p.headD (Position.Left, [])).2 == sha256T btcTag (strBytes "eee"))))
      = some (some ([Position.Right, Position.Right, Position.Left], true)) := by decide

/-- C1: the proof-verification round trip fails on the code.  For the 9-leaf
`"Bitcoin_Transaction"` tree, `get_proof("ccc")` returns a proof (of 4
items), yet replaying the spec's verification contract over it from
`tagged_hash(leaf_tag, "ccc")` does NOT reproduce `get_root()`: the
`(i-1)/2` parent walk of `build_proof` leaves the stored layer boundaries
whenever some layer above the leaves is padded (here 9 → 5 → 3 → 2 → 1), so
the recorded siblings come from the wrong slots. -/
theorem nine_leaf_roundtrip_fails :
    (MerkleTree.build 32 sha256T vals9 btcTag btcTag).map
      (fun t => (t.get_proof sha256T (strBytes "ccc")).map
        (fun p => (p.length,
                   runProof sha256T btcTag p (sha256T btcTag (strBytes "ccc"))
                     == t.get_root)))
      = some (some (4, false)) := by decide

/-- C5: a present balance does not imply a present proof.  For the database
built from the single record `(1, 1111)`, `get_balance(1)` returns
`Some 1111` but `get_proof(1)` returns `None`, because `find_leaf` scans the
leaf slots starting one index too late and never sees the first leaf. -/
theorem balance_present_proof_absent :
    (InMemoryDatabase.create sha256T [(1, 1111)] btcTag btcTag).map
      (fun db => (db.get_balance 1, db.get_proof sha256T 1))
      = some (some 1111, none) := by decide

/-- C6 counterexample: for the tree built over 3 values the stored node array
has 7 slots, not the 3 + 2 + 1 = 6 true digest counts, and slot 6 holds a
phantom duplicate of slot 5 (the duplicated last digest of the odd leaf
layer is stored as part of the layer). -/
theorem stored_layers_padded_counterexample :
    (MerkleTree.build 32 sha256T [strBytes "aaa", strBytes "bbb", strBytes "ccc"]
        btcTag btcTag).map
      (fun t => (t.total_nodes, t.nodes.length,
                 t.nodes.getD 6 [] == t.nodes.getD 5 []))
      = some (7, 7, true) := by decide

/-- C6 (amended): for every non-empty build, the stored node array allocates
the PADDED layer sizes — each layer of odd length `> 1` gets one extra stored
slot holding a duplicate of its last digest (`dupSlotsOk` checks that slot of
every layer, walking the layers exactly as `build_rec` does) — so
`total_nodes` is the sum of the padded sizes; the true (unpadded) hash-layer
counts start at `n`, follow `⌈previous/2⌉`, and end at a final layer of
exactly one digest, which is what `get_root` returns. -/
theorem padded_layer_structure (hsz : Nat) (th : List Nat → List Nat → List Nat)
    (lt bt : List Nat) (values : List (List Nat)) (h : values ≠ []) :
    ∃ t, MerkleTree.build hsz th values lt bt = some t
      ∧ t.total_nodes = ((layerSizes values.length).map padLen).sum
      ∧ (layerSizes values.length).head? = some values.length
      ∧ (layerSizes values.length).getLast? = some 1
      ∧ List.Chain' (fun a b => b = (a + 1) / 2) (layerSizes values.length)
      ∧ t.get_root = rootHash th bt (values.map (th lt))
      ∧ dupSlotsOk th bt t.total_nodes (values.length + 1) 0
          (values.map (th lt)) t.nodes = true := by
  have hL : 1 ≤ values.length := List.length_pos.mpr h
  obtain ⟨t, heq, -, -, -, htot, -, -, hroot, hdup⟩ := build_spec hsz th lt bt values h
  refine ⟨t, heq, ?_, ?_, ?_, ?_, hroot, hdup⟩
  · rw [htot, count_nodes_eq_padSum values.length hL]
    rfl
  · exact layerSizesLoop_head? (values.length + 1) values.length (by omega)
  · exact layerSizesLoop_getLast? values.length (values.length + 1) hL (by omega)
  · exact layerSizesLoop_chain values.length (values.length + 1) (by omega)

/-- C6 witness: the amended structure theorem applied to the concrete 3-value
build. -/
theorem padded_layer_structure_witness :
    ∃ t, MerkleTree.build 32 sha256T [strBytes "aaa", strBytes "bbb", strBytes "ccc"]
        btcTag btcTag = some t
      ∧ t.total_nodes = ((layerSizes [strBytes "aaa", strBytes "bbb", strBytes "ccc"].length).map padLen).sum
      ∧ (layerSizes [strBytes "aaa", strBytes "bbb", strBytes "ccc"].length).head?
          = some [strBytes "aaa", strBytes "bbb", strBytes "ccc"].length
      ∧ (layerSizes [strBytes "aaa", strBytes "bbb", strBytes "ccc"].length).getLast? = some 1
      ∧ List.Chain' (fun a b => b = (a + 1) / 2)
          (layerSizes [strBytes "aaa", strBytes "bbb", strBytes "ccc"].length)
      ∧ t.get_root = rootHash sha256T btcTag
          ([strBytes "aaa", strBytes "bbb", strBytes "ccc"].map (sha256T btcTag))
      ∧ dupSlotsOk sha256T btcTag t.total_nodes
          ([strBytes "aaa", strBytes "bbb", strBytes "ccc"].length + 1) 0
          ([strBytes "aaa", strBytes "bbb", strBytes "ccc"].map (sha256T btcTag))
          t.nodes = true :=
  padded_layer_structure 32 sha256T btcTag btcTag
    [strBytes "aaa", strBytes "bbb", strBytes "ccc"] (by decide)

/-- C10: for every non-empty input, `build` never panics — the `usize`
subtraction computing each layer's `start` never underflows and every slice
`nodes[start..start+layer_nodes]` stays inside the pre-allocated array
(these are exactly the two `Option` guards of `build_layer`, and `build`
returns `some`); moreover `count_nodes` equals the sum over all layers of
the padded sizes allocated by `build_layer`, and on completion
`built_nodes = total_nodes`. -/
theorem build_preallocation_safe (hsz : Nat) (th : List Nat → List Nat → List Nat)
    (lt bt : List Nat) (values : List (List Nat)) (h : values ≠ []) :
    ∃ t, MerkleTree.build hsz th values lt bt = some t
      ∧ t.built_nodes = t.total_nodes
      ∧ t.total_nodes = count_nodes values.length
      ∧ t.nodes.length = count_nodes values.length
      ∧ count_nodes values.length = ((layerSizes values.length).map padLen).sum := by
  have hL : 1 ≤ values.length := List.length_pos.mpr h
  obtain ⟨t, heq, -, -, -, htot, hbuilt, hlen, -⟩ := build_spec hsz th lt bt values h
  exact ⟨t, heq, by rw [hbuilt, htot], htot, hlen,
    count_nodes_eq_padSum values.length hL⟩

/-- C10 witness: the safety theorem applied to the concrete single-value
build. -/
theorem build_preallocation_safe_witness :
    ∃ t, MerkleTree.build 32 sha256T [strBytes "aaa"] btcTag btcTag = some t
      ∧ t.built_nodes = t.total_nodes
      ∧ t.total_nodes = count_nodes [strBytes "aaa"].length
      ∧ t.nodes.length = count_nodes [strBytes "aaa"].length
      ∧ count_nodes [strBytes "aaa"].length
          = ((layerSizes [strBytes "aaa"].length).map padLen).sum :=
  build_preallocation_safe 32 sha256T btcTag btcTag [strBytes "aaa"] (by decide)

/-- Sanity anchor: the SHA-256 model reproduces the standard test vector for
the empty message. -/
theorem sha256_empty_test_vector :
    sha256 [] = [0xe3, 0xb0, 0xc4, 0x42, 0x98, 0xfc, 0x1c, 0x14, 0x9a, 0xfb,
      0xf4, 0xc8, 0x99, 0x6f, 0xb9, 0x24, 0x27, 0xae, 0x41, 0xe4, 0x64, 0x9b,
      0x93, 0x4c, 0xa4, 0x95, 0x99, 0x1b, 0x78, 0x52, 0xb8, 0x55] := by decide

/-- Sanity anchor: the SHA-256 model reproduces the standard test vector for
`"abc"`. -/
theorem sha256_abc_test_vector :
    sha256 [0x61, 0x62, 0x63] = [0xba, 0x78, 0x16, 0xbf, 0x8f, 0x01, 0xcf,
      0xea, 0x41, 0x41, 0x40, 0xde, 0x5d, 0xae, 0x22, 0x23, 0xb0, 0x03, 0x61,
      0xa3, 0x96, 0x17, 0x7a, 0x9c, 0xb4, 0x10, 0xff, 0x61, 0xf2, 0x00, 0x15,
      0xad] := by decide
